import Mathlib

/-!
Verification development for `c_src/bcrypt.c` (comeonin): the scheduler-friendly
bcrypt NIF.  Shallow embedding: the nonstandard base64 codec, the identifier
parser of `bcrypt`, the resumable key-expansion engine `bcrypt_expandstate`,
the timing helpers `calc_percent` / `adjust_max_per_slice`, and the
buffer-zeroing discipline (`secure_bzero` and the release traces of each
exit path).  Bytes are `Nat` (< 256 where it matters), C `int` arithmetic is
`Int` with `Int.tdiv` for the truncating division of C.
-/

set_option maxRecDepth 4096

/-! ### SaltCodec: the nonstandard base64 alphabet (bcrypt.c lines 70-88) -/

/-- The 64-byte table `Base64Code` = `"./A-Za-z0-9"`, as ASCII codes
(the C source declares it as a `u_int8_t` array). -/
def Base64Code : List Nat :=
  [46, 47,
   65, 66, 67, 68, 69, 70, 71, 72, 73, 74, 75, 76, 77, 78, 79, 80, 81, 82,
   83, 84, 85, 86, 87, 88, 89, 90,
   97, 98, 99, 100, 101, 102, 103, 104, 105, 106, 107, 108, 109, 110, 111,
   112, 113, 114, 115, 116, 117, 118, 119, 120, 121, 122,
   48, 49, 50, 51, 52, 53, 54, 55, 56, 57]

/-- The 128-entry inverse table `index_64` (bcrypt.c lines 73-87). -/
def index_64 : List Nat :=
  [255, 255, 255, 255, 255, 255, 255, 255, 255, 255,
   255, 255, 255, 255, 255, 255, 255, 255, 255, 255,
   255, 255, 255, 255, 255, 255, 255, 255, 255, 255,
   255, 255, 255, 255, 255, 255, 255, 255, 255, 255,
   255, 255, 255, 255, 255, 255, 0, 1, 54, 55,
   56, 57, 58, 59, 60, 61, 62, 63, 255, 255,
   255, 255, 255, 255, 255, 2, 3, 4, 5, 6,
   7, 8, 9, 10, 11, 12, 13, 14, 15, 16,
   17, 18, 19, 20, 21, 22, 23, 24, 25, 26, 27,
   255, 255, 255, 255, 255, 255, 28, 29, 30,
   31, 32, 33, 34, 35, 36, 37, 38, 39, 40,
   41, 42, 43, 44, 45, 46, 47, 48, 49, 50,
   51, 52, 53, 255, 255, 255, 255, 255]

/-- `CHAR64(c)`: 255 for bytes above 127, otherwise the `index_64` entry
(bcrypt.c line 88). -/
def char64 (c : Nat) : Nat :=
  if c > 127 then 255 else index_64.getD c 255

/-- Lookup into `Base64Code`. -/
def code64 (v : Nat) : Nat := Base64Code.getD v 0

/-- `decode_base64(buffer, len, b64data)` (bcrypt.c lines 93-130): the
`while (bp < buffer + len)` loop consumes up to four symbols per three
output bytes, breaking early once `len` bytes are produced, and fails
(returns -1, here `none`) at the first symbol outside the alphabet.
Reading past the supplied symbols models the C string terminator as 0
(for which `CHAR64` yields 255). -/
def decode_base64 : Nat → List Nat → Option (List Nat)
  | 0, _ => some []
  | 1, p =>
    if char64 (p.getD 0 0) = 255 then none
    else if char64 (p.getD 1 0) = 255 then none
    else some [(char64 (p.getD 0 0) <<< 2) ||| ((char64 (p.getD 1 0) &&& 48) >>> 4)]
  | 2, p =>
    if char64 (p.getD 0 0) = 255 then none
    else if char64 (p.getD 1 0) = 255 then none
    else if char64 (p.getD 2 0) = 255 then none
    else some [(char64 (p.getD 0 0) <<< 2) ||| ((char64 (p.getD 1 0) &&& 48) >>> 4),
               ((char64 (p.getD 1 0) &&& 15) <<< 4) ||| ((char64 (p.getD 2 0) &&& 60) >>> 2)]
  | (n+3), p =>
    if char64 (p.getD 0 0) = 255 then none
    else if char64 (p.getD 1 0) = 255 then none
    else if char64 (p.getD 2 0) = 255 then none
    else if char64 (p.getD 3 0) = 255 then none
    else
      match decode_base64 n (p.drop 4) with
      | none => none
      | some rest =>
        some (((char64 (p.getD 0 0) <<< 2) ||| ((char64 (p.getD 1 0) &&& 48) >>> 4)) ::
              (((char64 (p.getD 1 0) &&& 15) <<< 4) ||| ((char64 (p.getD 2 0) &&& 60) >>> 2)) ::
              (((char64 (p.getD 2 0) &&& 3) <<< 6) ||| char64 (p.getD 3 0)) :: rest)

/-- `encode_base64(b64buffer, data, len)` (bcrypt.c lines 136-166): three
input bytes become four symbols; a trailing group of one or two bytes
becomes two or three symbols.  No padding is produced. -/
def encode_base64 : List Nat → List Nat
  | [] => []
  | [b1] => [code64 (b1 >>> 2), code64 ((b1 &&& 3) <<< 4)]
  | [b1, b2] => [code64 (b1 >>> 2),
                 code64 (((b1 &&& 3) <<< 4) ||| ((b2 >>> 4) &&& 15)),
                 code64 ((b2 &&& 15) <<< 2)]
  | b1 :: b2 :: b3 :: t =>
      code64 (b1 >>> 2) ::
      code64 (((b1 &&& 3) <<< 4) ||| ((b2 >>> 4) &&& 15)) ::
      code64 (((b2 &&& 15) <<< 2) ||| ((b3 >>> 6) &&& 3)) ::
      code64 (b3 &&& 63) :: encode_base64 t

/-- Number of input symbols the decoder consumes to produce `len` bytes:
four per full group of three bytes, two or three for a trailing group. -/
def consumedLen : Nat → Nat
  | 0 => 0
  | 1 => 2
  | 2 => 3
  | n+3 => 4 + consumedLen n

/-! ### Arithmetic facts about the 6-bit pieces -/

theorem char64_code64 : ∀ v, v < 64 → char64 (code64 v) = v := by decide

theorem piece16_facts : ∀ x, x < 4 → ∀ y, y < 16 →
    ((x <<< 4) ||| y) < 64 ∧ ((((x <<< 4) ||| y) &&& 48) >>> 4) = x ∧
    (((x <<< 4) ||| y) &&& 15) = y := by decide

theorem piece4_facts : ∀ x, x < 16 → ∀ y, y < 4 →
    ((x <<< 2) ||| y) < 64 ∧ ((((x <<< 2) ||| y) &&& 60) >>> 2) = x ∧
    (((x <<< 2) ||| y) &&& 3) = y := by decide

theorem byte_rebuild : ∀ b, b < 256 →
    (((b >>> 2) <<< 2) ||| (b &&& 3)) = b ∧
    ((((b >>> 4) &&& 15) <<< 4) ||| (b &&& 15)) = b ∧
    ((((b >>> 6) &&& 3) <<< 6) ||| (b &&& 63)) = b ∧
    b >>> 2 < 64 ∧ b &&& 3 < 4 ∧ (b >>> 4) &&& 15 < 16 ∧ b &&& 15 < 16 ∧
    (b >>> 6) &&& 3 < 4 ∧ b &&& 63 < 64 := by decide

theorem tail_facts : ∀ b, b < 256 →
    (b &&& 3) <<< 4 < 64 ∧ ((((b &&& 3) <<< 4) &&& 48) >>> 4) = b &&& 3 ∧
    (b &&& 15) <<< 2 < 64 ∧ ((((b &&& 15) <<< 2) &&& 60) >>> 2) = b &&& 15 := by decide

theorem getD_drop (n : Nat) : ∀ (p : List Nat) (j : Nat),
    (p.drop n).getD j 0 = p.getD (n + j) 0 := by
  induction n with
  | zero => intro p j; simp
  | succ n ih =>
    intro p j
    cases p with
    | nil => simp [List.getD]
    | cons a t =>
      have h := ih t j
      simpa [List.drop, List.getD, Nat.succ_add] using h

/-! ### Round-trip and validity of the codec -/

theorem encode_length : ∀ s : List Nat,
    (encode_base64 s).length = consumedLen s.length
  | [] => rfl
  | [_] => rfl
  | [_, _] => rfl
  | _ :: _ :: _ :: t => by
    show (_ :: _ :: _ :: _ :: encode_base64 t).length = consumedLen (t.length + 3)
    simp only [List.length_cons, consumedLen, encode_length t]
    omega

/-- Decoding the encoding of any byte list recovers it exactly. -/
theorem decode_encode : ∀ (s : List Nat), (∀ b ∈ s, b < 256) →
    decode_base64 s.length (encode_base64 s) = some s
  | [], _ => rfl
  | [b1], h => by
    have hb1 : b1 < 256 := h b1 (by simp)
    obtain ⟨r1, -, -, l4, l5, -, -, -, -⟩ := byte_rebuild b1 hb1
    obtain ⟨t1, t2, -, -⟩ := tail_facts b1 hb1
    show decode_base64 1 _ = _
    simp only [encode_base64, decode_base64, List.getD_cons_zero, List.getD_cons_succ]
    rw [char64_code64 _ l4, char64_code64 _ t1]
    rw [if_neg (by omega), if_neg (by omega), t2, r1]
  | [b1, b2], h => by
    have hb1 : b1 < 256 := h b1 (by simp)
    have hb2 : b2 < 256 := h b2 (by simp)
    obtain ⟨r1, -, -, l4, l5, -, -, -, -⟩ := byte_rebuild b1 hb1
    obtain ⟨-, r2', -, -, -, m6, m7, -, -⟩ := byte_rebuild b2 hb2
    obtain ⟨-, -, t3, t4⟩ := tail_facts b2 hb2
    obtain ⟨p1, p2, p3⟩ := piece16_facts (b1 &&& 3) l5 ((b2 >>> 4) &&& 15) m6
    show decode_base64 2 _ = _
    simp only [encode_base64, decode_base64, List.getD_cons_zero, List.getD_cons_succ]
    rw [char64_code64 _ l4, char64_code64 _ p1, char64_code64 _ t3]
    rw [if_neg (by omega), if_neg (by omega), if_neg (by omega)]
    rw [p2, p3, t4, r1, r2']
  | b1 :: b2 :: b3 :: t, h => by
    have hb1 : b1 < 256 := h b1 (by simp)
    have hb2 : b2 < 256 := h b2 (by simp)
    have hb3 : b3 < 256 := h b3 (by simp)
    have ih := decode_encode t (fun b hb => h b (by simp [hb]))
    obtain ⟨r1, -, -, l4, l5, -, -, -, -⟩ := byte_rebuild b1 hb1
    obtain ⟨-, r2', -, -, -, m6, m7, -, -⟩ := byte_rebuild b2 hb2
    obtain ⟨-, -, r3', -, -, -, -, n8, n9⟩ := byte_rebuild b3 hb3
    obtain ⟨p1, p2, p3⟩ := piece16_facts (b1 &&& 3) l5 ((b2 >>> 4) &&& 15) m6
    obtain ⟨q1, q2, q3⟩ := piece4_facts (b2 &&& 15) m7 ((b3 >>> 6) &&& 3) n8
    show decode_base64 (t.length + 3) _ = _
    simp only [encode_base64, decode_base64, List.getD_cons_zero, List.getD_cons_succ]
    rw [char64_code64 _ l4, char64_code64 _ p1, char64_code64 _ q1, char64_code64 _ n9]
    rw [if_neg (by omega), if_neg (by omega), if_neg (by omega), if_neg (by omega)]
    have hdrop : (code64 (b1 >>> 2) :: code64 (((b1 &&& 3) <<< 4) ||| ((b2 >>> 4) &&& 15)) ::
        code64 (((b2 &&& 15) <<< 2) ||| ((b3 >>> 6) &&& 3)) ::
        code64 (b3 &&& 63) :: encode_base64 t).drop 4 = encode_base64 t := rfl
    rw [hdrop, ih]
    rw [p2, p3, q2, q3, r1, r2', r3']

/-- A successful decode certifies that every consumed input symbol is in
the alphabet. -/
theorem decode_some_valid : ∀ (len : Nat) (p r : List Nat),
    decode_base64 len p = some r →
    ∀ j, j < consumedLen len → char64 (p.getD j 0) ≠ 255
  | 0, _, _, _, _, hj => by simp [consumedLen] at hj
  | 1, p, r, h, j, hj => by
    simp only [decode_base64] at h
    split_ifs at h with h1 h2
    intro hc
    have hj2 : j < 2 := hj
    have : j = 0 ∨ j = 1 := by omega
    rcases this with rfl | rfl
    · exact h1 hc
    · exact h2 hc
  | 2, p, r, h, j, hj => by
    simp only [decode_base64] at h
    split_ifs at h with h1 h2 h3
    intro hc
    have hj3 : j < 3 := hj
    interval_cases j
    · exact h1 hc
    · exact h2 hc
    · exact h3 hc
  | (n+3), p, r, h, j, hj => by
    simp only [decode_base64] at h
    split_ifs at h with h1 h2 h3 h4
    rcases hd : decode_base64 n (p.drop 4) with - | rest
    · rw [hd] at h; exact absurd h (by simp)
    · have ihall := decode_some_valid n (p.drop 4) rest hd
      intro hc
      have hj' : j < 4 + consumedLen n := by simpa [consumedLen] using hj
      rcases j with - | j; · exact h1 hc
      rcases j with - | j; · exact h2 hc
      rcases j with - | j; · exact h3 hc
      rcases j with - | j; · exact h4 hc
      have hjn : j < consumedLen n := by omega
      have := ihall j hjn
      rw [getD_drop] at this
      have h4j : 4 + j = j + 1 + 1 + 1 + 1 := by omega
      rw [h4j] at this
      exact this hc

/-! ### HashIdentifierParser: the validation phase of bcrypt() (lines 195-294) -/

/-- C `strlen` of a buffer whose content is the list (stops at a NUL byte). -/
def strlenL (s : List Nat) : Nat := (s.takeWhile (fun b => b ≠ 0)).length

/-- `isdigit` for Latin-1 bytes in the C locale. -/
def isdigitB (c : Nat) : Bool := 48 ≤ c && c ≤ 57

/-- The `switch (minor)` of bcrypt.c lines 226-242: minor `'a'` (97) takes
`(u_int8_t)(strlen(key) + 1)` — an 8-bit truncating cast; minor `'b'` (98)
caps `strlen(key)` at 72 and then adds one for the NUL; any other minor is
rejected. -/
def key_len_of (minor : Nat) (key : List Nat) : Option Nat :=
  if minor = 97 then some ((strlenL key + 1) % 256)
  else if minor = 98 then some (min (strlenL key) 72 + 1)
  else none

structure BcryptParams where
  key_len : Nat
  minor : Nat
  logr : Nat
  rounds : Nat
  csalt : List Nat
deriving DecidableEq

/-- The validation phase of `bcrypt` (bcrypt.c lines 217-268): `$` then the
version `'2'`, the minor switch, `$`, exactly two digits and `$` for the
cost, cost in [4,31], `rounds = 1 << logr`, a long-enough salt field that
base64-decodes to 16 raw bytes.  Every failure is `enif_make_badarg`
(`none` here). -/
def bcryptParse (key salt : List Nat) : Option BcryptParams :=
  if salt.getD 0 0 ≠ 36 then none
  else if salt.getD 1 0 ≠ 50 then none
  else
    match key_len_of (salt.getD 2 0) key with
    | none => none
    | some kl =>
      if salt.getD 3 0 ≠ 36 then none
      else if ¬(isdigitB (salt.getD 4 0) = true ∧ isdigitB (salt.getD 5 0) = true ∧
                salt.getD 6 0 = 36) then none
      else if 10 * (salt.getD 4 0 - 48) + (salt.getD 5 0 - 48) < 4 ∨
              10 * (salt.getD 4 0 - 48) + (salt.getD 5 0 - 48) > 31 then none
      else if strlenL (salt.drop 7) * 3 / 4 < 16 then none
      else match decode_base64 16 (salt.drop 7) with
        | none => none
        | some cs =>
            some ⟨kl, salt.getD 2 0,
                  10 * (salt.getD 4 0 - 48) + (salt.getD 5 0 - 48),
                  1 <<< (10 * (salt.getD 4 0 - 48) + (salt.getD 5 0 - 48)), cs⟩

/-! ### Timing helpers (bcrypt.c lines 496-531), C int arithmetic over Int -/

/-- `adjust_max_per_slice` (bcrypt.c lines 518-531).  The `mps` parameter is
immediately overwritten by `k - start_index`, exactly as in the source;
division is C truncating division (`Int.tdiv`). -/
def adjust_max_per_slice (mps total k start_index : Int) : Int :=
  if Int.tdiv total 100 = 0 then k - start_index
  else if Int.tdiv total 100 = 1 then
    (k - start_index) - Int.tdiv ((k - start_index) * (total - 100)) 100
  else Int.tdiv (k - start_index) (Int.tdiv total 100)

/-- `calc_percent` (bcrypt.c lines 496-512): `pct = elapsed_us / 10`; the
running total is increased by the raw (unclamped) `pct`; the returned
value is clamped to 100 from above and bumped from 0 to 1.  Result:
(returned percentage, updated total). -/
def calc_percent (total elapsed_us : Int) : Int × Int :=
  (if Int.tdiv elapsed_us 10 > 100 then 100
   else if Int.tdiv elapsed_us 10 = 0 then 1
   else Int.tdiv elapsed_us 10,
   total + Int.tdiv elapsed_us 10)

/-- The engine chains `adjust_max_per_slice` on unsigned values. -/
def adjustNat (mps total k start_index : Nat) : Nat :=
  (adjust_max_per_slice (mps : Int) (total : Int) (k : Int) (start_index : Int)).toNat

/-! ### KeyScheduleEngine: bcrypt_expandstate (bcrypt.c lines 314-399)

The Blowfish primitives live in the external `erl_blf.h` collaborator, so the
cipher state is an abstract type `S` and the two `Blowfish_expand0state`
calls (key, then salt) are abstract functions.  Wall-clock measurements and
the scheduler's `enif_consume_timeslice` verdict are an oracle: one
(elapsed microseconds, yield?) pair per outer-loop check. -/

inductive StepResult (S : Type) where
  | cont (s : S) (k : Nat) (mpsAdj : Nat)
  | fini (s : S)
  | spin
deriving DecidableEq

/-- One round of the original loop: `Blowfish_expand0state(state, key)` then
`Blowfish_expand0state(state, csalt)` (bcrypt.c lines 360-363). -/
def expandPair {S : Type} (fkey fsalt : S → S) : S → S := fun s => fsalt (fkey s)

/-- The `while (1)` loop of `bcrypt_expandstate` (bcrypt.c lines 356-391).
The inner do-while advances `k` from its current value to
`max (k+1) endIdx` (at least one round, since it is a do-while), applying
the expansion pair once per increment.  If `k == rounds` the loop breaks
to finalization; otherwise `calc_percent` adds `elapsed/10` to `total`
and the scheduler is consulted: on yield the slice suspends, returning
the rescheduling arguments with `max_per_slice` recomputed by
`adjust_max_per_slice`; otherwise `end` grows by `max_per_slice`
(capped at `rounds`) and the loop repeats.  `fuel` bounds the recursion;
`.spin` marks fuel exhaustion (unreachable from reachable states). -/
def expandLoop {S : Type} (fkey fsalt : S → S) (rounds start_index : Nat) :
    Nat → S → Nat → Nat → Nat → Nat → List (Nat × Bool) → StepResult S
  | 0, _, _, _, _, _, _ => .spin
  | fuel+1, s, k, endIdx, mps, total, oracle =>
    if k + max 1 (endIdx - k) = rounds then
      .fini ((expandPair fkey fsalt)^[max 1 (endIdx - k)] s)
    else if (oracle.headD (0, true)).2 then
      .cont ((expandPair fkey fsalt)^[max 1 (endIdx - k)] s) (k + max 1 (endIdx - k))
        (adjustNat mps (total + (oracle.headD (0, true)).1 / 10)
          (k + max 1 (endIdx - k)) start_index)
    else
      expandLoop fkey fsalt rounds start_index fuel
        ((expandPair fkey fsalt)^[max 1 (endIdx - k)] s)
        (k + max 1 (endIdx - k)) (min (endIdx + mps) rounds) mps
        (total + (oracle.headD (0, true)).1 / 10) oracle.tail

/-- One invocation of `bcrypt_expandstate` with arguments as scheduled:
`end = start_index + max_per_slice` capped at `rounds` (lines 349-353),
`k = start_index`, `total = 0`. -/
def bcrypt_expandstate_step {S : Type} (fkey fsalt : S → S) (rounds : Nat) (s : S)
    (start_index mps : Nat) (oracle : List (Nat × Bool)) : StepResult S :=
  expandLoop fkey fsalt rounds start_index (rounds + 1) s start_index
    (min (start_index + mps) rounds) mps 0 oracle

/-- The full chained run: each `.cont` reschedules `bcrypt_expandstate` with
the returned cipher state, `start_index = k` and the adjusted
`max_per_slice` (bcrypt.c lines 370-385); an entry of `overrides` may
substitute an arbitrary `max_per_slice` for a resume (slice boundaries are
arbitrary), `none` meaning the code's own adjusted value.  `fuel` bounds
the number of invocations. -/
def engineRun {S : Type} (fkey fsalt : S → S) (rounds : Nat) :
    Nat → S → Nat → Nat → List (List (Nat × Bool)) → List (Option Nat) → Option S
  | 0, _, _, _, _, _ => none
  | fuel+1, s, k, mps, oracles, overrides =>
    match bcrypt_expandstate_step fkey fsalt rounds s k mps (oracles.headD []) with
    | .fini s2 => some s2
    | .cont s2 k2 mpsAdj =>
      engineRun fkey fsalt rounds fuel s2 k2 ((overrides.headD none).getD mpsAdj)
        oracles.tail overrides.tail
    | .spin => none

/-- Modelled from the spec: the naive unsliced reference loop
`repeat rounds times (Expand(state, password); Expand(state, salt))`
(also the comment at bcrypt.c lines 297-303). -/
def naiveExpandLoop {S : Type} (fkey fsalt : S → S) : Nat → S → S
  | 0, s => s
  | n+1, s => naiveExpandLoop fkey fsalt n (fsalt (fkey s))

/-! ### SecureErase: secure_bzero and the per-exit-path buffer traces -/

/-- `secure_bzero` (bcrypt.c lines 478-489): the volatile byte-at-a-time
zeroing loop, as its effect on the buffer contents. -/
def secure_bzero : List Nat → List Nat
  | [] => []
  | _ :: t => 0 :: secure_bzero t

/-- The buffers of the three NIF routines that ever hold secret-derived
material: the cipher state binary, the decoded-salt binary, the stack
password buffer `key[1024]`, the `ciphertext` array, and the `cdata`
words. -/
inductive Buf where
  | stateB | csaltB | keyB | ciphertextB | cdataB
deriving DecidableEq

/-- A zeroing or release action on a buffer, in program order. -/
inductive Ev where
  | bz (b : Buf)
  | rel (b : Buf)
deriving DecidableEq

/-- `releasedUnzeroed tr b`: the trace releases `b` before ever zeroing it. -/
def releasedUnzeroed : List Ev → Buf → Bool
  | [], _ => false
  | Ev.rel b2 :: t, b => if b2 = b then true else releasedUnzeroed t b
  | Ev.bz b2 :: t, b => if b2 = b then false else releasedUnzeroed t b

/-- Whether the trace zeroes `b` at all. -/
def zeroedAtAll (tr : List Ev) (b : Buf) : Bool := tr.contains (Ev.bz b)

/-- Exit paths of `bcrypt_fini` (bcrypt.c lines 405-462): bad first binary,
bad second binary, bad integer args, or success. -/
inductive FiniCase where
  | badState | badCsalt | badArgs | ok
deriving DecidableEq

/-- Buffer events of each `bcrypt_fini` exit path, in source order.  The
error paths (lines 418-429) only call `enif_release_binary`; the success
path (lines 455-460) zeroes state, ciphertext, csalt and cdata. -/
def bcrypt_fini_events : FiniCase → List Ev
  | .badState => []
  | .badCsalt => [.rel .stateB]
  | .badArgs => [.rel .stateB, .rel .csaltB]
  | .ok => [.bz .stateB, .rel .stateB, .bz .ciphertextB, .bz .csaltB, .rel .csaltB,
            .bz .cdataB]

/-- Buffers holding secret-derived bytes when each `bcrypt_fini` path runs. -/
def bcrypt_fini_secret : FiniCase → List Buf
  | .badState => []
  | .badCsalt => [.stateB]
  | .badArgs => [.stateB, .csaltB]
  | .ok => [.stateB, .csaltB, .ciphertextB, .cdataB]

/-- Exit paths of `bcrypt` (bcrypt.c lines 195-294): failure before the key
is read, structural failure after the key is read (lines 217-262),
`decode_base64` or state-allocation failure (lines 267-272), or the
successful handoff to `bcrypt_expandstate`. -/
inductive BcryptCase where
  | badEarly | parseFailAfterKey | decodeFail | allocStateFail | ok
deriving DecidableEq

/-- Buffer events of each `bcrypt` exit path: the only cleanup is
`enif_release_binary(&csalt)` at `inval_release_csalt` (line 291); no
path zeroes anything. -/
def bcrypt_events : BcryptCase → List Ev
  | .badEarly => []
  | .parseFailAfterKey => []
  | .decodeFail => [.rel .csaltB]
  | .allocStateFail => [.rel .csaltB]
  | .ok => []

/-- Buffers holding secret bytes on each `bcrypt` exit path (the stack
`key` buffer holds the password from the moment `enif_get_string`
succeeds; on the success path `state` and `csalt` are handed off, not
released). -/
def bcrypt_secret : BcryptCase → List Buf
  | .badEarly => []
  | .parseFailAfterKey => [.keyB]
  | .decodeFail => [.keyB, .csaltB]
  | .allocStateFail => [.keyB, .csaltB]
  | .ok => [.keyB]

/-- Exit paths of `bcrypt_expandstate` argument validation (bcrypt.c lines
329-345) plus the handoff paths (suspend or finalize). -/
inductive ExpCase where
  | badState | badCsalt | badArgs | handoff
deriving DecidableEq

/-- Buffer events of each `bcrypt_expandstate` exit path: error paths only
release (lines 332, 342-343); suspension and finalization hand the
binaries off and zero nothing. -/
def expandstate_events : ExpCase → List Ev
  | .badState => []
  | .badCsalt => [.rel .stateB]
  | .badArgs => [.rel .stateB, .rel .csaltB]
  | .handoff => []

/-- Buffers holding secret bytes on each `bcrypt_expandstate` exit path. -/
def expandstate_secret : ExpCase → List Buf
  | .badState => []
  | .badCsalt => [.stateB]
  | .badArgs => [.stateB, .csaltB]
  | .handoff => [.keyB]

/-! ### Engine correctness: slicing refines the naive loop -/

theorem naive_eq_iterate {S : Type} (fkey fsalt : S → S) :
    ∀ (n : Nat) (s : S), naiveExpandLoop fkey fsalt n s = (expandPair fkey fsalt)^[n] s
  | 0, _ => rfl
  | n+1, s => by
    show naiveExpandLoop fkey fsalt n (fsalt (fkey s)) = _
    rw [naive_eq_iterate fkey fsalt n (fsalt (fkey s)), Function.iterate_succ_apply]
    rfl

/-- Behaviour of the `while (1)` loop from any reachable configuration:
it either breaks to finalization with exactly `rounds` expansion pairs
applied in total, or suspends having strictly advanced `k` without
passing `rounds`. -/
theorem expandLoop_run {S : Type} (fkey fsalt : S → S) (rounds start_index : Nat) (s0 : S) :
    ∀ (fuel k endIdx mps total : Nat) (oracle : List (Nat × Bool)),
      k < rounds → endIdx ≤ rounds → rounds - k ≤ fuel →
      (∃ s2, expandLoop fkey fsalt rounds start_index fuel ((expandPair fkey fsalt)^[k] s0)
          k endIdx mps total oracle = .fini s2 ∧
          s2 = (expandPair fkey fsalt)^[rounds] s0) ∨
      (∃ s2 k2 m2, expandLoop fkey fsalt rounds start_index fuel ((expandPair fkey fsalt)^[k] s0)
          k endIdx mps total oracle = .cont s2 k2 m2 ∧
          s2 = (expandPair fkey fsalt)^[k2] s0 ∧ k < k2 ∧ k2 < rounds)
  | 0, k, endIdx, mps, total, oracle, hk, hend, hfuel => by omega
  | fuel+1, k, endIdx, mps, total, oracle, hk, hend, hfuel => by
    have hiter : (expandPair fkey fsalt)^[max 1 (endIdx - k)] ((expandPair fkey fsalt)^[k] s0)
        = (expandPair fkey fsalt)^[k + max 1 (endIdx - k)] s0 := by
      rw [← Function.iterate_add_apply, Nat.add_comm]
    have hk2r : k + max 1 (endIdx - k) ≤ rounds := by omega
    by_cases hfin : k + max 1 (endIdx - k) = rounds
    · left
      refine ⟨_, by rw [expandLoop, if_pos hfin], ?_⟩
      rw [hiter, hfin]
    · by_cases hy : (oracle.headD (0, true)).2 = true
      · right
        refine ⟨_, _, _, by rw [expandLoop, if_neg hfin, if_pos hy], hiter, by omega, by omega⟩
      · have hrec := expandLoop_run fkey fsalt rounds start_index s0 fuel
          (k + max 1 (endIdx - k)) (min (endIdx + mps) rounds) mps
          (total + (oracle.headD (0, true)).1 / 10) oracle.tail
          (by omega) (by omega) (by omega)
        rw [expandLoop, if_neg hfin, if_neg hy, hiter]
        rcases hrec with ⟨s2, heq, hs2⟩ | ⟨s2, k2, m2, heq, hs2, hlt, hk2⟩
        · exact Or.inl ⟨s2, heq, hs2⟩
        · exact Or.inr ⟨s2, k2, m2, heq, hs2, by omega, hk2⟩

/-- Any chained sequence of `bcrypt_expandstate` invocations from a
reachable configuration completes within `rounds - k` invocations and
yields exactly the state of the unsliced loop. -/
theorem engineRun_run {S : Type} (fkey fsalt : S → S) (rounds : Nat) (s0 : S) :
    ∀ (fuel k mps : Nat) (oracles : List (List (Nat × Bool))) (overrides : List (Option Nat)),
      k < rounds → rounds - k ≤ fuel →
      engineRun fkey fsalt rounds fuel ((expandPair fkey fsalt)^[k] s0) k mps oracles overrides
        = some ((expandPair fkey fsalt)^[rounds] s0)
  | 0, k, mps, oracles, overrides, hk, hfuel => by omega
  | fuel+1, k, mps, oracles, overrides, hk, hfuel => by
    rcases expandLoop_run fkey fsalt rounds k s0 (rounds+1) k (min (k + mps) rounds) mps 0
        (oracles.headD []) hk (by omega) (by omega) with
      ⟨s2, heq, hs2⟩ | ⟨s2, k2, m2, heq, hs2, hlt, hk2⟩
    · rw [engineRun,
        show bcrypt_expandstate_step fkey fsalt rounds ((expandPair fkey fsalt)^[k] s0) k mps
          (oracles.headD []) = StepResult.fini s2 from heq]
      exact congrArg some hs2
    · rw [engineRun,
        show bcrypt_expandstate_step fkey fsalt rounds ((expandPair fkey fsalt)^[k] s0) k mps
          (oracles.headD []) = StepResult.cont s2 k2 m2 from heq]
      show engineRun fkey fsalt rounds fuel s2 k2 _ _ _ = _
      rw [hs2]
      exact engineRun_run fkey fsalt rounds s0 fuel k2 _ _ _ hk2 (by omega)

/-- Claim C1: slicing is unobservable.  For every password/salt expansion
pair, every positive round count, every initial `max_per_slice`, every
sequence of timing measurements and scheduler yield decisions, and every
per-resume override of `max_per_slice` (slice boundaries arbitrary,
`start_index` chained exactly as the code chains it), the resumable
engine reaches finalization with exactly the state of the naive unsliced
loop, so the deterministically finalized hash string is byte-identical. -/
theorem engine_slicing_unobservable {S T : Type} (fkey fsalt : S → S) (finalize : S → T)
    (rounds mps0 : Nat) (oracles : List (List (Nat × Bool))) (overrides : List (Option Nat))
    (s0 : S) (hr : 0 < rounds) :
    (engineRun fkey fsalt rounds rounds s0 0 mps0 oracles overrides).map finalize =
      some (finalize (naiveExpandLoop fkey fsalt rounds s0)) := by
  have h := engineRun_run fkey fsalt rounds s0 rounds 0 mps0 oracles overrides hr (by omega)
  rw [show (expandPair fkey fsalt)^[0] s0 = s0 from rfl] at h
  rw [h, naive_eq_iterate]
  rfl

/-- Claim C1 witness: password/salt expansion on `Nat` with `rounds = 16`,
run as one unbroken slice (`max_per_slice = 25`), as slices `[3,5,8]`
(overriding the resumed `max_per_slice`), and as sixteen slices of size 1
(the code's own adjusted chaining), all equal to the naive loop. -/
theorem engine_slicing_unobservable_witness :
    (0 < 16 ∧
      (engineRun Nat.succ (fun s => 3 * s) 16 16 0 0 25 [] []).map (fun s => s + 1) =
        some (naiveExpandLoop Nat.succ (fun s => 3 * s) 16 0 + 1)) ∧
    ((engineRun Nat.succ (fun s => 3 * s) 16 16 0 0 3 [[(0, true)], [(0, true)], []]
        [some 5, some 8]).map (fun s => s + 1) =
        some (naiveExpandLoop Nat.succ (fun s => 3 * s) 16 0 + 1)) ∧
    ((engineRun Nat.succ (fun s => 3 * s) 16 16 0 0 1 (List.replicate 16 [(500, true)])
        []).map (fun s => s + 1) =
        some (naiveExpandLoop Nat.succ (fun s => 3 * s) 16 0 + 1)) :=
  ⟨⟨by decide, engine_slicing_unobservable _ _ _ 16 25 [] [] 0 (by decide)⟩,
   engine_slicing_unobservable _ _ _ 16 3 _ _ 0 (by decide),
   engine_slicing_unobservable _ _ _ 16 1 _ _ 0 (by decide)⟩

/-! ### Parser inversion -/

theorem bcryptParse_inv (key salt : List Nat) (p : BcryptParams)
    (h : bcryptParse key salt = some p) :
    key_len_of (salt.getD 2 0) key = some p.key_len ∧
    p.minor = salt.getD 2 0 ∧
    isdigitB (salt.getD 4 0) = true ∧ isdigitB (salt.getD 5 0) = true ∧
    salt.getD 6 0 = 36 ∧
    p.logr = 10 * (salt.getD 4 0 - 48) + (salt.getD 5 0 - 48) ∧
    4 ≤ p.logr ∧ p.logr ≤ 31 ∧ p.rounds = 1 <<< p.logr ∧
    decode_base64 16 (salt.drop 7) = some p.csalt := by
  rcases hkl : key_len_of (salt.getD 2 0) key with - | kl
  · simp only [bcryptParse, hkl] at h
    split_ifs at h
  · simp only [bcryptParse, hkl] at h
    rcases hdec : decode_base64 16 (salt.drop 7) with - | cs <;> simp only [hdec] at h
    · split_ifs at h
    · split_ifs at h with hA hB hC hD hE hF
      injection h with h2
      have e1 : p.key_len = kl := by rw [← h2]
      have e2 : p.minor = salt.getD 2 0 := by rw [← h2]
      have e3 : p.logr = 10 * (salt.getD 4 0 - 48) + (salt.getD 5 0 - 48) := by rw [← h2]
      have e4 : p.rounds = 1 <<< (10 * (salt.getD 4 0 - 48) + (salt.getD 5 0 - 48)) := by
        rw [← h2]
      have e5 : p.csalt = cs := by rw [← h2]
      refine ⟨?_, e2, hD.1, hD.2.1, hD.2.2, e3, ?_, ?_, ?_, ?_⟩
      · rw [e1]
      · rw [e3]; omega
      · rw [e3]; omega
      · rw [e4, e3]
      · rw [e5]

/-! ### Claims C8 and C10 -/

/-- Claim C8: whenever parsing succeeds, `0 < rounds ≤ 2^31`; and from any
reachable engine configuration (`current_index = k < rounds`, state equal
to `k` expansion pairs), one `bcrypt_expandstate` invocation either
transitions to finalization having performed exactly `rounds` pairs in
total (the transition happens exactly at `current_index = rounds`), or
suspends at a strictly larger `current_index` that is still below
`rounds` — so `current_index` only increases, within an invocation and
across suspend/resume cycles, and never exceeds `rounds`. -/
theorem engine_invariants :
    (∀ key salt p, bcryptParse key salt = some p → 0 < p.rounds ∧ p.rounds ≤ 2 ^ 31) ∧
    (∀ (S : Type) (fkey fsalt : S → S) (rounds k mps : Nat) (oracle : List (Nat × Bool))
       (s0 : S), k < rounds →
      (∃ s2, bcrypt_expandstate_step fkey fsalt rounds ((expandPair fkey fsalt)^[k] s0) k mps
          oracle = .fini s2 ∧ s2 = (expandPair fkey fsalt)^[rounds] s0) ∨
      (∃ s2 k2 m2, bcrypt_expandstate_step fkey fsalt rounds ((expandPair fkey fsalt)^[k] s0)
          k mps oracle = .cont s2 k2 m2 ∧ s2 = (expandPair fkey fsalt)^[k2] s0 ∧
          k < k2 ∧ k2 < rounds)) := by
  constructor
  · intro key salt p h
    obtain ⟨-, -, -, -, -, -, h4, h31, hr, -⟩ := bcryptParse_inv key salt p h
    rw [hr, Nat.one_shiftLeft]
    exact ⟨Nat.pos_pow_of_pos p.logr (by norm_num),
           Nat.pow_le_pow_right (by norm_num) h31⟩
  · intro S fkey fsalt rounds k mps oracle s0 hk
    exact expandLoop_run fkey fsalt rounds k s0 (rounds + 1) k (min (k + mps) rounds) mps 0
      oracle hk (by omega) (by omega)

/-- Concrete parse input: `key = []`, `salt = "$2b$04$" ++ 22 dots`. -/
def saltB04 : List Nat := [36, 50, 98, 36, 48, 52, 36] ++ List.replicate 22 46

/-- The parameters `bcryptParse [] saltB04` produces. -/
def pB04 : BcryptParams := ⟨1, 98, 4, 16, List.replicate 16 0⟩

/-- Claim C8 witness. -/
theorem engine_invariants_witness :
    (0 < pB04.rounds ∧ pB04.rounds ≤ 2 ^ 31) ∧
    ((∃ s2, bcrypt_expandstate_step Nat.succ id 4 ((expandPair Nat.succ id)^[0] 0) 0 25
        [] = .fini s2 ∧ s2 = (expandPair Nat.succ id)^[4] 0) ∨
     (∃ s2 k2 m2, bcrypt_expandstate_step Nat.succ id 4 ((expandPair Nat.succ id)^[0] 0) 0 25
        [] = .cont s2 k2 m2 ∧ s2 = (expandPair Nat.succ id)^[k2] 0 ∧ 0 < k2 ∧ k2 < 4)) :=
  ⟨engine_invariants.1 [] saltB04 pB04 (by decide),
   engine_invariants.2 Nat Nat.succ id 4 0 25 [] 0 (by decide)⟩

/-- Claim C10: from any reachable configuration with `start_index = k`
below `rounds`, an invocation of `bcrypt_expandstate` that suspends has
advanced `current_index` by at least one — the inner do-while always
executes the key/salt expansion pair at least once — for every
`max_per_slice`, including 0; consequently the chained engine reaches
finalization within `rounds - k` further invocations. -/
theorem engine_progress (S : Type) (fkey fsalt : S → S) (rounds k mps : Nat)
    (oracle : List (Nat × Bool)) (oracles : List (List (Nat × Bool)))
    (overrides : List (Option Nat)) (s0 : S) (hk : k < rounds) :
    (∀ s2 k2 m2, bcrypt_expandstate_step fkey fsalt rounds ((expandPair fkey fsalt)^[k] s0)
        k mps oracle = .cont s2 k2 m2 →
        k + 1 ≤ k2 ∧ s2 = (expandPair fkey fsalt)^[k2] s0) ∧
    engineRun fkey fsalt rounds (rounds - k) ((expandPair fkey fsalt)^[k] s0) k mps oracles
      overrides = some ((expandPair fkey fsalt)^[rounds] s0) := by
  constructor
  · intro s2 k2 m2 heq
    rcases expandLoop_run fkey fsalt rounds k s0 (rounds + 1) k (min (k + mps) rounds) mps 0
        oracle hk (by omega) (by omega) with
      ⟨s3, heq2, -⟩ | ⟨s3, k3, m3, heq2, hs3, hlt3, -⟩
    · have hcontra : StepResult.fini s3 = StepResult.cont s2 k2 m2 :=
        (show bcrypt_expandstate_step fkey fsalt rounds ((expandPair fkey fsalt)^[k] s0) k mps
          oracle = StepResult.fini s3 from heq2).symm.trans heq
      exact StepResult.noConfusion hcontra
    · have hsame : StepResult.cont s3 k3 m3 = StepResult.cont s2 k2 m2 :=
        (show bcrypt_expandstate_step fkey fsalt rounds ((expandPair fkey fsalt)^[k] s0) k mps
          oracle = StepResult.cont s3 k3 m3 from heq2).symm.trans heq
      injection hsame with e1 e2 e3
      subst e1; subst e2
      exact ⟨by omega, hs3⟩
  · exact engineRun_run fkey fsalt rounds s0 (rounds - k) k mps oracles overrides hk (by omega)

/-- Claim C10 witness: `rounds = 3`, resumed at `k = 1` with
`max_per_slice = 0`. -/
theorem engine_progress_witness :
    (∀ s2 k2 m2, bcrypt_expandstate_step Nat.succ id 3 ((expandPair Nat.succ id)^[1] 0) 1 0
        [] = .cont s2 k2 m2 → 1 + 1 ≤ k2 ∧ s2 = (expandPair Nat.succ id)^[k2] 0) ∧
    engineRun Nat.succ id 3 (3 - 1) ((expandPair Nat.succ id)^[1] 0) 1 0 [] [] =
      some ((expandPair Nat.succ id)^[3] 0) :=
  engine_progress Nat Nat.succ id 3 1 0 [] [] [] 0 (by decide)

/-! ### Claims C2 and C7: the parser -/

/-- Concrete salt string `"$2a$04$" ++ 22 dots`. -/
def saltA04 : List Nat := [36, 50, 97, 36, 48, 52, 36] ++ List.replicate 22 46

/-- Concrete salt string `"$2b$03$" ++ 22 dots` (cost below 4). -/
def saltB03 : List Nat := [36, 50, 98, 36, 48, 51, 36] ++ List.replicate 22 46

/-- Concrete salt string `"$2c$04$" ++ 22 dots` (unrecognized minor). -/
def saltC04 : List Nat := [36, 50, 99, 36, 48, 52, 36] ++ List.replicate 22 46

/-- Claim C2 counterexample: for a 255-byte password under minor `'a'`, the
`(u_int8_t)` cast makes the effective key length `(255+1) mod 256 = 0`,
not the claimed uncapped `strlen+1 = 256`. -/
theorem key_len_minor_cex :
    (bcryptParse (List.replicate 255 97) saltA04).map (fun q => q.key_len) = some 0 ∧
    (0 : Nat) ≠ strlenL (List.replicate 255 97) + 1 := by
  constructor
  · decide
  · decide

/-- Claim C2 (amended): parsing under minor `'a'` sets the effective key
length to `(strlen(password) + 1) mod 256` (the `u_int8_t` truncating
cast); under minor `'b'` to `min(strlen(password), 72) + 1`; any other
minor character after `"$2"` makes parsing fail. -/
theorem key_len_minor_amended :
    (∀ key salt p, bcryptParse key salt = some p →
      (p.minor = 97 → p.key_len = (strlenL key + 1) % 256) ∧
      (p.minor = 98 → p.key_len = min (strlenL key) 72 + 1)) ∧
    (∀ key salt, salt.getD 2 0 ≠ 97 → salt.getD 2 0 ≠ 98 →
      bcryptParse key salt = none) := by
  constructor
  · intro key salt p h
    obtain ⟨hkl, hminor, -, -, -, -, -, -, -, -⟩ := bcryptParse_inv key salt p h
    constructor
    · intro hm
      have hs : salt.getD 2 0 = 97 := hminor.symm.trans hm
      rw [key_len_of, if_pos hs] at hkl
      injection hkl with e
      exact e.symm
    · intro hm
      have hs : salt.getD 2 0 = 98 := hminor.symm.trans hm
      rw [key_len_of, if_neg (by omega), if_pos hs] at hkl
      injection hkl with e
      exact e.symm
  · intro key salt h97 h98
    rcases hp : bcryptParse key salt with - | p
    · rfl
    · exfalso
      obtain ⟨hkl, -, -, -, -, -, -, -, -, -⟩ := bcryptParse_inv key salt p hp
      rw [key_len_of, if_neg h97, if_neg h98] at hkl
      exact Option.noConfusion hkl

/-- Claim C2 witness. -/
theorem key_len_minor_witness :
    ((pB04.minor = 97 → pB04.key_len = (strlenL [] + 1) % 256) ∧
     (pB04.minor = 98 → pB04.key_len = min (strlenL []) 72 + 1)) ∧
    bcryptParse [] saltC04 = none :=
  ⟨key_len_minor_amended.1 [] saltB04 pB04 (by decide),
   key_len_minor_amended.2 [] saltC04 (by decide) (by decide)⟩

/-- Claim C7: parsing fails unless the rounds field is exactly two ASCII
digits followed by `'$'` with decoded value in [4,31]; on success the
engine uses `rounds = 2 ^ log_rounds`. -/
theorem rounds_field_parse :
    (∀ key salt,
      ¬(isdigitB (salt.getD 4 0) = true ∧ isdigitB (salt.getD 5 0) = true ∧
        salt.getD 6 0 = 36 ∧
        4 ≤ 10 * (salt.getD 4 0 - 48) + (salt.getD 5 0 - 48) ∧
        10 * (salt.getD 4 0 - 48) + (salt.getD 5 0 - 48) ≤ 31) →
      bcryptParse key salt = none) ∧
    (∀ key salt p, bcryptParse key salt = some p →
      isdigitB (salt.getD 4 0) = true ∧ isdigitB (salt.getD 5 0) = true ∧
      salt.getD 6 0 = 36 ∧ 4 ≤ p.logr ∧ p.logr ≤ 31 ∧ p.rounds = 2 ^ p.logr) := by
  constructor
  · intro key salt hbad
    rcases hp : bcryptParse key salt with - | p
    · rfl
    · exfalso
      obtain ⟨-, -, d1, d2, d3, hlogr, h4, h31, -, -⟩ := bcryptParse_inv key salt p hp
      exact hbad ⟨d1, d2, d3, by omega, by omega⟩
  · intro key salt p h
    obtain ⟨-, -, d1, d2, d3, -, h4, h31, hr, -⟩ := bcryptParse_inv key salt p h
    exact ⟨d1, d2, d3, h4, h31, by rw [hr, Nat.one_shiftLeft]⟩

/-- Claim C7 witness: `"$2b$03$..."` is rejected; `"$2b$04$..."` parses
with `rounds = 2^4`. -/
theorem rounds_field_parse_witness :
    bcryptParse [] saltB03 = none ∧
    (isdigitB (saltB04.getD 4 0) = true ∧ isdigitB (saltB04.getD 5 0) = true ∧
     saltB04.getD 6 0 = 36 ∧ 4 ≤ pB04.logr ∧ pB04.logr ≤ 31 ∧
     pB04.rounds = 2 ^ pB04.logr) :=
  ⟨rounds_field_parse.1 [] saltB03 (by decide),
   rounds_field_parse.2 [] saltB04 pB04 (by decide)⟩

/-! ### Claims C4, C5, C6: the timing helpers -/

/-- Claim C4 counterexample: with `total = 200` (one slice twice the
quantum), `k = 1`, `start_index = 0` — an input satisfying the claim's
reachability condition `k > start_index` — the adjustment returns
`1 / 2 = 0`, stalling forward progress; no floor is applied. -/
theorem adjust_floor_cex :
    adjust_max_per_slice 25 200 1 0 = 0 ∧ ¬(1 ≤ adjust_max_per_slice 25 200 1 0) := by
  decide

/-- Claim C4 (amended): for inputs with `k > start_index`, the returned
`max_per_slice` is at least 1 whenever the accumulated total percentage
is below 200 (`m ≤ 1`); with `total ≥ 200` the result `completed / m`
can be 0. -/
theorem adjust_floor_amended (mps total k start_index : Int)
    (h1 : start_index < k) (h2 : 0 ≤ total) (h3 : total < 200) :
    1 ≤ adjust_max_per_slice mps total k start_index := by
  have hm := Int.tdiv_eq_ediv h2 (by norm_num : (0:Int) ≤ 100)
  unfold adjust_max_per_slice
  rw [hm]
  have hc : 1 ≤ k - start_index := by omega
  by_cases hm0 : total / 100 = 0
  · rw [if_pos hm0]; omega
  · have hm1 : total / 100 = 1 := by omega
    rw [if_neg hm0, if_pos hm1]
    have h100 : 100 ≤ total := by omega
    have hnn : 0 ≤ (k - start_index) * (total - 100) :=
      mul_nonneg (by omega) (by omega)
    rw [Int.tdiv_eq_ediv hnn (by norm_num : (0:Int) ≤ 100)]
    have hub : (k - start_index) * (total - 100) / 100 < k - start_index := by
      apply Int.ediv_lt_of_lt_mul (by norm_num)
      have : (k - start_index) * (total - 100) < (k - start_index) * 100 :=
        mul_lt_mul_of_pos_left (by omega) (by omega)
      omega
    have hlb : 0 ≤ (k - start_index) * (total - 100) / 100 :=
      Int.ediv_nonneg hnn (by norm_num)
    omega

/-- Claim C4 witness. -/
theorem adjust_floor_amended_witness : 1 ≤ adjust_max_per_slice 25 150 10 0 :=
  adjust_floor_amended 25 150 10 0 (by decide) (by decide) (by decide)

/-- Modelled from the spec: the self-tuning rule of section 4.3, stated on
`completed = current_index - dispatch_start_index` and
`m = accumulated_total_percentage / 100`. -/
def adjust_rule_spec (total c : Int) : Int :=
  if total / 100 = 0 then c
  else if total / 100 = 1 then c - c * (total - 100) / 100
  else c / (total / 100)

/-- Claim C5: `adjust_max_per_slice` computes exactly the spec's three-case
formula (for the reachable sign conditions `total ≥ 0`,
`start_index ≤ k`, where C truncating division and mathematical integer
division agree). -/
theorem adjust_formula (mps total k start_index : Int) (ht : 0 ≤ total)
    (hk : start_index ≤ k) :
    adjust_max_per_slice mps total k start_index =
      adjust_rule_spec total (k - start_index) := by
  unfold adjust_max_per_slice adjust_rule_spec
  rw [Int.tdiv_eq_ediv ht (by norm_num : (0:Int) ≤ 100)]
  split_ifs with hm0 hm1
  · rfl
  · have h100 : 100 ≤ total := by omega
    rw [Int.tdiv_eq_ediv (mul_nonneg (by omega) (by omega : (0:Int) ≤ total - 100))
      (by norm_num : (0:Int) ≤ 100)]
  · rw [Int.tdiv_eq_ediv (by omega : (0:Int) ≤ k - start_index)
      (Int.ediv_nonneg ht (by norm_num))]

/-- Claim C5 witness: one instance per case of the rule. -/
theorem adjust_formula_witness :
    adjust_max_per_slice 25 50 10 0 = adjust_rule_spec 50 (10 - 0) ∧
    adjust_max_per_slice 25 150 10 0 = adjust_rule_spec 150 (10 - 0) ∧
    adjust_max_per_slice 25 350 10 0 = adjust_rule_spec 350 (10 - 0) :=
  ⟨adjust_formula 25 50 10 0 (by decide) (by decide),
   adjust_formula 25 150 10 0 (by decide) (by decide),
   adjust_formula 25 350 10 0 (by decide) (by decide)⟩

/-- Claim C6 counterexample: an elapsed time of 2000 microseconds gives
`pct = 200`; the function returns the clamped 100 but increases the
running total by the raw 200, not by the clamped value. -/
theorem calc_percent_cex :
    calc_percent 0 2000 = (100, 200) ∧ ((200 : Int) ≠ 0 + 100) := by decide

/-- Claim C6 (amended): for nonnegative elapsed time, the returned value is
`elapsed/10` clamped to [1,100], but the running total grows by the raw
unclamped `elapsed/10`. -/
theorem calc_percent_amended (total elapsed_us : Int) (h : 0 ≤ elapsed_us) :
    calc_percent total elapsed_us =
      (max 1 (min 100 (elapsed_us / 10)), total + elapsed_us / 10) := by
  unfold calc_percent
  rw [Int.tdiv_eq_ediv h (by norm_num : (0:Int) ≤ 10)]
  have h10 : 0 ≤ elapsed_us / 10 := Int.ediv_nonneg h (by norm_num)
  split_ifs with h1 h2 <;> (congr 1 <;> omega)

/-- Claim C6 witness. -/
theorem calc_percent_amended_witness :
    calc_percent 7 250 = (max 1 (min 100 ((250 : Int) / 10)), 7 + (250 : Int) / 10) :=
  calc_percent_amended 7 250 (by decide)

/-! ### Claim C3: secure zeroing -/

/-- Claim C3 counterexample: on the invalid-csalt error path of
`bcrypt_fini` the cipher-state binary — which holds fully expanded key
material — is released without ever being zeroed. -/
theorem secure_zeroing_cex :
    Buf.stateB ∈ bcrypt_fini_secret FiniCase.badCsalt ∧
    releasedUnzeroed (bcrypt_fini_events FiniCase.badCsalt) Buf.stateB = true ∧
    zeroedAtAll (bcrypt_fini_events FiniCase.badCsalt) Buf.stateB = false := by decide

/-- Replacement for a release event test: true when the event is a release. -/
def isRelEv : Ev → Bool
  | Ev.bz _ => false
  | Ev.rel _ => true

/-- Claim C3 (amended): `secure_bzero` really zeroes its whole buffer, and
zeroing happens exactly on the success path of `bcrypt_fini`, where every
secret buffer (state, csalt, ciphertext, cdata) is zeroed before being
released; every error path of `bcrypt`, `bcrypt_expandstate` and
`bcrypt_fini` releases without zeroing, and the stack password buffer is
never zeroed by any path. -/
theorem secure_zeroing_amended :
    (∀ l, secure_bzero l = List.replicate l.length 0) ∧
    ((bcrypt_fini_secret FiniCase.ok).all fun b =>
      zeroedAtAll (bcrypt_fini_events FiniCase.ok) b &&
      !releasedUnzeroed (bcrypt_fini_events FiniCase.ok) b) = true ∧
    ([FiniCase.badState, FiniCase.badCsalt, FiniCase.badArgs].all fun c =>
      (bcrypt_fini_events c).all fun e => isRelEv e) = true ∧
    ([BcryptCase.badEarly, BcryptCase.parseFailAfterKey, BcryptCase.decodeFail,
      BcryptCase.allocStateFail, BcryptCase.ok].all fun c =>
      !zeroedAtAll (bcrypt_events c) Buf.keyB &&
      ((bcrypt_events c).all fun e => isRelEv e)) = true ∧
    ([ExpCase.badState, ExpCase.badCsalt, ExpCase.badArgs, ExpCase.handoff].all fun c =>
      !zeroedAtAll (expandstate_events c) Buf.keyB &&
      ((expandstate_events c).all fun e => isRelEv e)) = true := by
  refine ⟨?_, by decide, by decide, by decide, by decide⟩
  intro l
  induction l with
  | nil => rfl
  | cons a t ih => simp [secure_bzero, ih, List.replicate_succ]

/-! ### Claim C9: salt round-trip and invalid symbols -/

/-- Claim C9: decoding the 22-character nonstandard base64 encoding of any
16-byte raw salt returns the original 16 bytes (hence re-encoding
reproduces the original 22-character encoding), and decoding with
expected length 16 fails whenever any of the 22 consumed positions holds
a symbol outside the alphabet. -/
theorem salt_base64_roundtrip :
    (∀ s : List Nat, s.length = 16 → (∀ b ∈ s, b < 256) →
      decode_base64 16 (encode_base64 s) = some s ∧
      (encode_base64 s).length = 22 ∧
      (decode_base64 16 (encode_base64 s)).map encode_base64 =
        some (encode_base64 s)) ∧
    (∀ p : List Nat, (∃ j, j < 22 ∧ char64 (p.getD j 0) = 255) →
      decode_base64 16 p = none) := by
  constructor
  · intro s h16 hb
    have h := decode_encode s hb
    rw [h16] at h
    refine ⟨h, ?_, ?_⟩
    · rw [encode_length, h16]; decide
    · rw [h]; rfl
  · intro p hex
    obtain ⟨j, hj, hbad⟩ := hex
    rcases hd : decode_base64 16 p with - | r
    · rfl
    · have h22 : consumedLen 16 = 22 := by decide
      exact absurd hbad (decode_some_valid 16 p r hd j (h22.symm ▸ hj))

/-- Claim C9 witness: the 16-byte salt `[0,…,15]` round-trips; a 22-symbol
string of `'$'` characters is rejected. -/
theorem salt_base64_roundtrip_witness :
    (decode_base64 16 (encode_base64 (List.range 16)) = some (List.range 16) ∧
     (encode_base64 (List.range 16)).length = 22 ∧
     (decode_base64 16 (encode_base64 (List.range 16))).map encode_base64 =
       some (encode_base64 (List.range 16))) ∧
    decode_base64 16 (List.replicate 22 36) = none :=
  ⟨salt_base64_roundtrip.1 (List.range 16) (by decide) (by decide),
   salt_base64_roundtrip.2 (List.replicate 22 36) ⟨0, by decide, by decide⟩⟩
